import Mathlib

set_option maxHeartbeats 1000000

/-!
Shallow embedding of the soup-tadpole chess engine core
(src/engine.rs, src/transposition_table.rs, src/main.rs).

The board/move representation is an external dependency (cozy_chess), so the
embedding is parametric in the board type `B` and move type `M`, with the
external collaborator's operations collected in a `ChessApi` structure.
Machine integers (`i32`, `u32`) are modelled as `Int`/`Nat`; all scores that
occur stay within `±1_000_000`, far from any `i32` wraparound, so overflow is
immaterial.
-/

/-- Mirrors cozy_chess::Color. -/
inductive Color where
  | White
  | Black
deriving DecidableEq, Repr

/-- Mirrors cozy_chess::GameStatus.  Per the cozy_chess contract, `Won` is
reported on a position whose side to move has no legal moves and is in check
(i.e. the side to move has been checkmated and the opponent won). -/
inductive GameStatus where
  | Won
  | Drawn
  | Ongoing
deriving DecidableEq, Repr

/-- Mirrors cozy_chess::Piece. -/
inductive Piece where
  | Pawn
  | Knight
  | Bishop
  | Rook
  | Queen
  | King
deriving DecidableEq, Repr

/-- NodeType from transposition_table.rs. -/
inductive NodeType where
  | PV
  | All
  | Cut
deriving DecidableEq, Repr

/-- TableEntry from transposition_table.rs (`depth: u32` as `Nat`,
`score: i32` and `age: i32` as `Int`). -/
structure TableEntry (M : Type) where
  best_response : M
  depth : Nat
  score : Int
  node : NodeType
  age : Int
deriving DecidableEq, Repr

/-- ProbeResult from transposition_table.rs. -/
inductive ProbeResult (M : Type) where
  | Miss
  | OrderingHint (mv : M)
  | SearchResult (mv : M) (score : Int)
deriving DecidableEq, Repr

/-- The TranspositionTable struct: the DashMap is modelled as an association
list with distinct keys (every operation preserves key uniqueness), and the
`oldest_entry: AtomicI32` counter as an `Int`. -/
structure TranspositionTable (B M : Type) where
  table : List (B × TableEntry M)
  oldest_entry : Int

/-- Lookup in the association list modelling `DashMap::get`. -/
def assocFind [DecidableEq B] : List (B × E) → B → Option E
  | [], _ => none
  | (k, v) :: rest, pos => if k = pos then some v else assocFind rest pos

/-- Insert-or-replace in the association list modelling `DashMap::insert`. -/
def assocSet [DecidableEq B] : List (B × E) → B → E → List (B × E)
  | [], pos, e => [(pos, e)]
  | (k, v) :: rest, pos, e =>
    if k = pos then (pos, e) :: rest else (k, v) :: assocSet rest pos e

namespace TranspositionTable

/-- MAX_SIZE from transposition_table.rs. -/
def MAX_SIZE : Nat := 42000000

/-- The NodeType dispatch inside `probe` (transposition_table.rs lines 33-49),
reached once the stored depth passed the `res.depth >= search_depth` test. -/
def probeNode (res : TableEntry M) (alpha beta : Int) : ProbeResult M :=
  match res.node with
  | .PV => .SearchResult res.best_response res.score
  | .All =>
    if res.score ≤ alpha then .SearchResult res.best_response alpha
    else .OrderingHint res.best_response
  | .Cut =>
    if beta ≤ res.score then .SearchResult res.best_response beta
    else .OrderingHint res.best_response

/-- probe from transposition_table.rs lines 29-56. -/
def probe [DecidableEq B] (t : TranspositionTable B M) (pos : B)
    (search_depth : Nat) (alpha beta : Int) : ProbeResult M :=
  match assocFind t.table pos with
  | some res =>
    if search_depth ≤ res.depth then probeNode res alpha beta
    else .OrderingHint res.best_response
  | none => .Miss

/-- age from transposition_table.rs lines 59-65: increments every stored
age and the oldest_entry counter. -/
def age (t : TranspositionTable B M) : TranspositionTable B M :=
  ⟨t.table.map (fun p => (p.1, ⟨p.2.best_response, p.2.depth, p.2.score, p.2.node, p.2.age + 1⟩)),
   t.oldest_entry + 1⟩

/-- prune from transposition_table.rs lines 87-90: retains entries with
age strictly below oldest_entry, then decrements oldest_entry. -/
def prune [DecidableEq B] (t : TranspositionTable B M) : TranspositionTable B M :=
  ⟨t.table.filter (fun p => decide (p.2.age < t.oldest_entry)), t.oldest_entry - 1⟩

/-- insert from transposition_table.rs lines 68-86: prune first when
`len + 1 >= MAX_SIZE`, then depth-preferred replacement. -/
def insert [DecidableEq B] (t : TranspositionTable B M) (pos : B)
    (entry : TableEntry M) : TranspositionTable B M :=
  let t1 := if MAX_SIZE ≤ t.table.length + 1 then t.prune else t
  match assocFind t1.table pos with
  | some res =>
    if res.depth ≤ entry.depth then ⟨assocSet t1.table pos entry, t1.oldest_entry⟩
    else t1
  | none => ⟨assocSet t1.table pos entry, t1.oldest_entry⟩

end TranspositionTable

/-- The operations the engine consumes from the external move-generation
dependency (cozy_chess); see spec section 6's dependency contract.
`piece_count b c p` is `(board.pieces(p) & board.colors(c)).len()`. -/
structure ChessApi (B M : Type) where
  generate_moves : B → List M
  play_unchecked : B → M → B
  status : B → GameStatus
  side_to_move : B → Color
  piece_count : B → Color → Piece → Nat
  null_move : B → Option B

/-- count_material from engine.rs lines 240-251. -/
def count_material (api : ChessApi B M) (board : B) (player : Color) : Int :=
  Int.ofNat (api.piece_count board player .Pawn * 100
    + api.piece_count board player .Knight * 320
    + api.piece_count board player .Bishop * 330
    + api.piece_count board player .Rook * 500
    + api.piece_count board player .Queen * 900)

/-- count_moves from engine.rs lines 267-275. -/
def count_moves (api : ChessApi B M) (board : B) : Int :=
  Int.ofNat (api.generate_moves board).length

/-- calculate_mobility from engine.rs lines 254-265. -/
def calculate_mobility (api : ChessApi B M) (board : B) (player : Color) : Int :=
  if player = api.side_to_move board then count_moves api board
  else
    match api.null_move board with
    | some b => count_moves api b
    | none => 0

/-- evaluate from engine.rs lines 212-237.  The source's own comment reads
"Evaluate the board from player that just made a move's perspective". -/
def evaluate (api : ChessApi B M) (board : B) : Int :=
  match api.status board with
  | .Won =>
    match api.side_to_move board with
    | .White => -20000
    | .Black => 20000
  | .Drawn => 0
  | .Ongoing =>
    let material_diff := count_material api board .White - count_material api board .Black
    let mobility_diff := calculate_mobility api board .White - calculate_mobility api board .Black
    let eval := material_diff + mobility_diff * 10
    if api.side_to_move board = .Black then eval else -eval

/-- Vec::swap(i, 0) on a list (used by put_move_first / put_move_board_first);
out-of-range indices cannot arise at the call sites. -/
def swap_front (l : List α) (i : Nat) : List α :=
  match l, i with
  | [], _ => []
  | x :: xs, 0 => x :: xs
  | x :: xs, j + 1 =>
    match xs.get? j with
    | none => x :: xs
    | some y => y :: xs.set j x

/-- put_move_first from engine.rs lines 206-209.  The source unwraps the
found position (the hinted move is always taken from an entry for this very
position); an absent move is modelled as leaving the list unchanged. -/
def put_move_first [DecidableEq M] (mv : M) (moves : List M) : List M :=
  match moves.findIdx? (fun m => decide (m = mv)) with
  | some i => swap_front moves i
  | none => moves

/-- put_move_board_first from engine.rs lines 201-204 (same remark on the
source's unwrap). -/
def put_move_board_first [DecidableEq M] (mv : M) (boards : List (B × M)) : List (B × M) :=
  match boards.findIdx? (fun p => decide (p.2 = mv)) with
  | some i => swap_front boards i
  | none => boards

/-- The `for mv in move_list` loop of alpha_beta (engine.rs lines 171-197),
abstracted over `child`, the recursive call `alpha_beta(-beta, -alpha, depth+1,
max_depth, ..)` applied to the running alpha and the successor board.
`entry_depth` is the `max_depth` written into every stored entry. -/
def runMoves [DecidableEq B]
    (child : Int → B → TranspositionTable B M → Option Int × TranspositionTable B M)
    (api : ChessApi B M) (board : B) (beta : Int) (entry_depth : Nat) :
    List M → Int → TranspositionTable B M → Option Int × TranspositionTable B M
  | [], alpha, t => (some alpha, t)
  | mv :: rest, alpha, t =>
    let local_board := api.play_unchecked board mv
    match child alpha local_board t with
    | (none, t1) => (none, t1)
    | (some child_score, t1) =>
      let score := -child_score
      if beta ≤ score then
        (some beta, t1.insert board ⟨mv, entry_depth, score, NodeType.Cut, 0⟩)
      else if alpha < score then
        runMoves child api board beta entry_depth rest score
          (t1.insert board ⟨mv, entry_depth, score, NodeType.All, 0⟩)
      else
        runMoves child api board beta entry_depth rest alpha t1

/-- alpha_beta from engine.rs lines 146-199, with an explicit fuel argument
for termination: calling it with any `fuel ≥ max_depth - depth` (the wrapper
`alpha_beta` below passes `max_depth`) reproduces the source recursion, whose
own depth parameter increases by one per call until `depth >= max_depth`.
The out-of-fuel clause `(none, table)` is unreachable under that bound.
The source reads the `stop` flag on entry (engine.rs line 147) but the body of
that `if` is empty, so the flag has no effect; it is kept as a parameter and
threaded to the recursive calls exactly as in the source. -/
def alphaBetaF [DecidableEq B] [DecidableEq M] (api : ChessApi B M) :
    Nat → Int → Int → Nat → Nat → B → TranspositionTable B M → Bool →
    Option Int × TranspositionTable B M
  | fuel, initial_alpha, beta, depth, max_depth, board, table, stop =>
    if max_depth ≤ depth then (some (evaluate api board), table)
    else
      match fuel with
      | 0 => (none, table)
      | fuel' + 1 =>
        let move_list := api.generate_moves board
        match table.probe board depth initial_alpha beta with
        | .SearchResult _ s => (some s, table)
        | .Miss =>
          runMoves
            (fun alpha b t => alphaBetaF api fuel' (-beta) (-alpha) (depth + 1) max_depth b t stop)
            api board beta max_depth move_list initial_alpha table
        | .OrderingHint mv =>
          runMoves
            (fun alpha b t => alphaBetaF api fuel' (-beta) (-alpha) (depth + 1) max_depth b t stop)
            api board beta max_depth (put_move_first mv move_list) initial_alpha table

/-- alpha_beta with the fuel fixed to `max_depth`, which suffices for every
call (the search coordinator always starts at `depth = 0`). -/
def alpha_beta [DecidableEq B] [DecidableEq M] (api : ChessApi B M)
    (initial_alpha beta : Int) (depth max_depth : Nat) (board : B)
    (table : TranspositionTable B M) (stop : Bool) :
    Option Int × TranspositionTable B M :=
  alphaBetaF api max_depth initial_alpha beta depth max_depth board table stop

/-- The State struct of engine.rs lines 82-87; the AtomicBool cancellation
signal is modelled as the Bool value a search observes. -/
structure EngineState (B M : Type) where
  board : B
  stop : Bool
  transposition_table : TranspositionTable B M

/-- The rayon par_iter fan-out over root boards (engine.rs line 119),
serialized: the workers share one DashMap, and this model threads the table
through the workers in list order (one admissible interleaving). -/
def rootEvaluations [DecidableEq B] [DecidableEq M] (api : ChessApi B M)
    (alpha beta : Int) (d : Nat) (stop : Bool) :
    List (B × M) → TranspositionTable B M →
    List (M × Option Int) × TranspositionTable B M
  | [], t => ([], t)
  | (b, mv) :: rest, t =>
    let r := alpha_beta api alpha beta 0 d b t stop
    let rs := rootEvaluations api alpha beta d stop rest r.2
    ((mv, r.1) :: rs.1, rs.2)

/-- The `for depth in 1..7` iterative-deepening loop of search (engine.rs
lines 104-142).  `k` is the number of remaining iterations (6 at depth 1).
`sortFn` stands for `slice::sort_unstable_by` with the score comparator —
an implementation-defined sorted permutation, kept as a parameter.
The `sorted.head? = none` fallback mirrors the fact that the source's
`.first().unwrap()` is only reached with a nonempty move list. -/
def searchLoop [DecidableEq B] [DecidableEq M] (api : ChessApi B M)
    (sortFn : List (M × Option Int) → List (M × Option Int)) (stop : Bool) (root : B) :
    Nat → Nat → List (B × M) → M × Int → Int → Int → TranspositionTable B M →
    (M × Int) × TranspositionTable B M
  | 0, _, _, best, _, _, t => (best, t)
  | k + 1, depth, boards, best, alpha, beta, t =>
    if stop then (best, t)
    else
      let continueDepth := fun (boards2 : List (B × M)) =>
        let et := rootEvaluations api alpha beta depth stop boards2 t
        let sorted := sortFn et.1
        match sorted.head? with
        | none => (best, et.2)
        | some (_, none) => (best, et.2)
        | some (mv0, some s0) =>
          searchLoop api sortFn stop root k (depth + 1) boards2 (mv0, s0)
            (s0 - 100) (s0 + 100)
            (et.2.insert root ⟨mv0, depth, s0, NodeType.PV, 0⟩)
      match t.probe root depth alpha beta with
      | .SearchResult mv s =>
        searchLoop api sortFn stop root k (depth + 1) boards (mv, s) alpha beta t
      | .Miss => continueDepth boards
      | .OrderingHint mv => continueDepth (put_move_board_first mv boards)

/-- search from engine.rs lines 89-144.  On a terminal position the source
indexes `move_list[0]` on an empty list and fails; that failure is the `none`
result.  Otherwise it returns the final best move/score pair and the table. -/
def search [DecidableEq B] [DecidableEq M] (api : ChessApi B M)
    (sortFn : List (M × Option Int) → List (M × Option Int))
    (st : EngineState B M) : Option ((M × Int) × TranspositionTable B M) :=
  let move_list := api.generate_moves st.board
  match move_list with
  | [] => none
  | m0 :: _ =>
    let boards := move_list.map (fun mv => (api.play_unchecked st.board mv, mv))
    some (searchLoop api sortFn st.stop st.board 6 1 boards (m0, 0) (-1000000) 1000000
      st.transposition_table)

/-- The comparator `e1.partial_cmp(e2).unwrap()` used on the `Option<i32>`
scores at engine.rs line 122: Rust's `Option` ordering puts `None` below every
`Some`, and compares the payloads otherwise. -/
def cmpScore : Option Int → Option Int → Ordering
  | none, none => .eq
  | none, some _ => .lt
  | some _, none => .gt
  | some a, some b => if a < b then .lt else if a = b then .eq else .gt

/-- The contract of `slice::sort_unstable_by` with the score comparator
(engine.rs line 122): the output is a permutation of the input that is
non-decreasing under the comparator.  The order among elements that compare
equal is implementation defined — nothing more may be assumed. -/
def RustSortedBy {M : Type} (input output : List (M × Option Int)) : Prop :=
  output.Perm input ∧ output.Chain' (fun a b => cmpScore a.2 b.2 ≠ .gt)

/-- EngineMessage from engine.rs lines 19-26 (the Position payload types are
the abstract board and move history). -/
inductive EngineMessage (B M : Type) where
  | Position (board : B) (history : List M)
  | Go
  | Stop
  | ReadyCheck
  | NewGame
  | Quit
deriving DecidableEq

/-- How one pass of the Go-state polling loop (engine.rs lines 53-66) ends,
for a given snapshot of the inbound channel's queued messages. -/
inductive PollOutcome where
  | stopSet        -- the cancellation signal is stored and the loop breaks
  | errorExit      -- "Recived wrong message": the engine function returns, no reply is sent
  | blockedOnRecv  -- the loop is blocked inside `recv.recv()` awaiting a further message
  | normalBreak    -- the worker finished and the loop breaks
  | keepPolling    -- nothing to do; the loop spins again
deriving DecidableEq, Repr

/-- One iteration of the polling loop in the Go handler (engine.rs lines
53-66), as a function of the messages currently queued on the inbound channel
and of whether the search worker has finished.  `recv.try_recv().is_ok()`
pops and discards the first queued message whenever one exists; the engine
then blocks in `recv.recv()` and inspects the NEXT message: only a `Stop`
there sets the cancellation signal, anything else makes `engine` return.
`handle.is_finished()` is consulted only when the queue was empty. -/
def goLoopIteration (queue : List (EngineMessage B M)) (workerFinished : Bool) :
    PollOutcome :=
  match queue with
  | _ :: .Stop :: _ => .stopSet
  | _ :: _ :: _ => .errorExit
  | [_] => .blockedOnRecv
  | [] => if workerFinished then .normalBreak else .keepPolling

/-!  Concrete instances used by counterexamples and witnesses. -/

/-- An association list of `n` table entries with the distinct keys
`start, start+1, …, start+n-1`, all holding the same entry. -/
def keyRun (e : TableEntry Nat) : Nat → Nat → List (Nat × TableEntry Nat)
  | 0, _ => []
  | n + 1, s => (s, e) :: keyRun e n (s + 1)

/-- A deep, aged entry (depth 5, age 2). -/
def entryDeep : TableEntry Nat := ⟨0, 5, 0, .PV, 2⟩

/-- A shallow, fresh entry (depth 1, age 0). -/
def entryShallow : TableEntry Nat := ⟨1, 1, 7, .PV, 0⟩

/-- A fresh entry at depth 3 and age 0. -/
def entryFresh : TableEntry Nat := ⟨0, 3, 50, .PV, 0⟩

/-- A table at the prune-trigger size whose every entry (including a deep
entry for position 0) has age 2, with the eviction threshold at 1: the prune
pass that `insert` triggers removes all of them. -/
def bigStaleTable : TranspositionTable Nat Nat :=
  ⟨(0, entryDeep) :: keyRun entryDeep (TranspositionTable.MAX_SIZE - 1) 1, 1⟩

/-- The young entry filling bigFreshTable. -/
def freshRunEntry : TableEntry Nat := ⟨0, 5, 0, .PV, 0⟩

/-- A table already at MAX_SIZE whose every entry has age 0, with the
eviction threshold at 1: the prune pass that `insert` triggers keeps all of
them. -/
def bigFreshTable : TranspositionTable Nat Nat :=
  ⟨keyRun freshRunEntry TranspositionTable.MAX_SIZE 0, 1⟩

/-- The abstract view of a position in which the side to move, Black, has
been checkmated (for instance the scholar's-mate position after
1.e4 e5 2.Qh5 Nc6 3.Bc4 Nf6 4.Qxf7#): cozy_chess reports `GameStatus::Won`,
`side_to_move() == Black`, and no legal moves. -/
def blackMatedApi : ChessApi Unit Unit :=
  ⟨fun _ => [], fun b _ => b, fun _ => .Won, fun _ => .Black, fun _ _ _ => 0, fun _ => none⟩

/-- The same with White to move checkmated (e.g. the fool's-mate position). -/
def whiteMatedApi : ChessApi Unit Unit :=
  ⟨fun _ => [], fun b _ => b, fun _ => .Won, fun _ => .White, fun _ _ _ => 0, fun _ => none⟩

/-- The abstract view of a drawn (stalemated) position. -/
def drawnApi : ChessApi Unit Unit :=
  ⟨fun _ => [], fun b _ => b, fun _ => .Drawn, fun _ => .White, fun _ _ _ => 0, fun _ => none⟩

/-- A trivial position with no legal moves and an ongoing status is all the
witnesses below need of the move-generation dependency. -/
def stuckApi : ChessApi Unit Nat :=
  ⟨fun _ => [], fun b _ => b, fun _ => .Ongoing, fun _ => .White, fun _ _ _ => 0, fun _ => none⟩

/-- The empty transposition table. -/
def emptyTable : TranspositionTable Unit Nat := ⟨[], 0⟩

/-- A one-entry table over concrete types for witnesses. -/
def smallTable : TranspositionTable Nat Nat := ⟨[(0, entryFresh)], 1⟩

/-- An entry whose age equals the eviction threshold of the table below. -/
def staleEntry : TableEntry Nat := ⟨0, 3, 50, .PV, 1⟩

/-- A one-entry table whose stored age equals its oldest_entry threshold. -/
def staleSmallTable : TranspositionTable Nat Nat := ⟨[(0, staleEntry)], 1⟩

/-- A depth-3 entry stored for the unique Unit position. -/
def unitEntry : TableEntry Nat := ⟨0, 3, 50, .PV, 0⟩

/-- A one-entry table over the Unit board type. -/
def unitTable : TranspositionTable Unit Nat := ⟨[((), unitEntry)], 0⟩

/-- The White-minus-Black material-plus-mobility sum that evaluate negates
for White to move (engine.rs lines 226-236): naming it lets the corrected
perspective statement be read off. -/
def whiteRelativeScore (api : ChessApi B M) (board : B) : Int :=
  (count_material api board .White - count_material api board .Black)
    + (calculate_mobility api board .White - calculate_mobility api board .Black) * 10

/-!  Helper lemmas about the association-list operations. -/

theorem assocFind_assocSet_self [DecidableEq B] (l : List (B × E)) (pos : B) (e : E) :
    assocFind (assocSet l pos e) pos = some e := by
  induction l with
  | nil => simp [assocSet, assocFind]
  | cons kv rest ih =>
    obtain ⟨k, v⟩ := kv
    by_cases h : k = pos
    · simp [assocSet, assocFind, h]
    · simp [assocSet, assocFind, h, ih]

theorem assocSet_length_le [DecidableEq B] (l : List (B × E)) (pos : B) (e : E) :
    (assocSet l pos e).length ≤ l.length + 1 := by
  induction l with
  | nil => simp [assocSet]
  | cons kv rest ih =>
    obtain ⟨k, v⟩ := kv
    by_cases h : k = pos
    · simp [assocSet, h]
    · simp only [assocSet, if_neg h, List.length_cons]
      omega

theorem assocSet_length_of_find_none [DecidableEq B] {l : List (B × E)} {pos : B}
    (e : E) (h : assocFind l pos = none) :
    (assocSet l pos e).length = l.length + 1 := by
  induction l with
  | nil => simp [assocSet]
  | cons kv rest ih =>
    obtain ⟨k, v⟩ := kv
    by_cases hk : k = pos
    · simp [assocFind, hk] at h
    · simp only [assocFind, if_neg hk] at h
      simp only [assocSet, if_neg hk, List.length_cons, ih h]

theorem assocFind_none_of_forall [DecidableEq B] {l : List (B × E)} {pos : B}
    (h : ∀ p ∈ l, p.1 ≠ pos) : assocFind l pos = none := by
  induction l with
  | nil => rfl
  | cons kv rest ih =>
    obtain ⟨k, v⟩ := kv
    have hk : k ≠ pos := h (k, v) (List.mem_cons_self _ _)
    simp only [assocFind, if_neg hk]
    exact ih (fun p hp => h p (List.mem_cons_of_mem _ hp))

theorem mem_vals_assocSet [DecidableEq B] {l : List (B × E)} {pos : B} {e e' : E}
    (h : e' ∈ (assocSet l pos e).map Prod.snd) : e' ∈ l.map Prod.snd ∨ e' = e := by
  induction l with
  | nil => simp [assocSet] at h; right; exact h
  | cons kv rest ih =>
    obtain ⟨k, v⟩ := kv
    by_cases hk : k = pos
    · simp only [assocSet, if_pos hk, List.map_cons, List.mem_cons] at h
      rcases h with h | h
      · right; exact h
      · left; simp only [List.map_cons, List.mem_cons]; right; exact h
    · simp only [assocSet, if_neg hk, List.map_cons, List.mem_cons] at h
      rcases h with h | h
      · left; simp only [List.map_cons, List.mem_cons]; left; exact h
      · rcases ih h with h2 | h2
        · left; simp only [List.map_cons, List.mem_cons]; right; exact h2
        · right; exact h2

/-!  Helper lemmas about the transposition-table operations. -/

theorem mem_vals_prune [DecidableEq B] {t : TranspositionTable B M} {e' : TableEntry M}
    (h : e' ∈ (TranspositionTable.prune t).table.map Prod.snd) :
    e' ∈ t.table.map Prod.snd := by
  simp only [TranspositionTable.prune, List.mem_map] at h ⊢
  obtain ⟨p, hp, hpe⟩ := h
  exact ⟨p, (List.mem_filter.mp hp).1, hpe⟩

theorem prune_length_le [DecidableEq B] (t : TranspositionTable B M) :
    (TranspositionTable.prune t).table.length ≤ t.table.length :=
  List.length_filter_le _ _

theorem mem_vals_insert [DecidableEq B] {t : TranspositionTable B M} {pos : B}
    {e e' : TableEntry M} (h : e' ∈ (t.insert pos e).table.map Prod.snd) :
    e' ∈ t.table.map Prod.snd ∨ e' = e := by
  have hsub : ∀ e'', e'' ∈ (if TranspositionTable.MAX_SIZE ≤ t.table.length + 1
      then TranspositionTable.prune t else t).table.map Prod.snd →
      e'' ∈ t.table.map Prod.snd := by
    intro e'' h''
    by_cases hc : TranspositionTable.MAX_SIZE ≤ t.table.length + 1
    · rw [if_pos hc] at h''; exact mem_vals_prune h''
    · rw [if_neg hc] at h''; exact h''
  simp only [TranspositionTable.insert] at h
  set t1 := if TranspositionTable.MAX_SIZE ≤ t.table.length + 1
      then TranspositionTable.prune t else t with ht1
  split at h
  · split at h
    · rcases mem_vals_assocSet h with h2 | h2
      · exact Or.inl (hsub _ h2)
      · exact Or.inr h2
    · exact Or.inl (hsub _ h)
  · rcases mem_vals_assocSet h with h2 | h2
    · exact Or.inl (hsub _ h2)
    · exact Or.inr h2

theorem insert_length_le [DecidableEq B] (t : TranspositionTable B M) (pos : B)
    (e : TableEntry M) : (t.insert pos e).table.length ≤ t.table.length + 1 := by
  have hsub : (if TranspositionTable.MAX_SIZE ≤ t.table.length + 1
      then TranspositionTable.prune t else t).table.length ≤ t.table.length := by
    by_cases hc : TranspositionTable.MAX_SIZE ≤ t.table.length + 1
    · rw [if_pos hc]; exact prune_length_le t
    · rw [if_neg hc]
  simp only [TranspositionTable.insert]
  set t1 := if TranspositionTable.MAX_SIZE ≤ t.table.length + 1
      then TranspositionTable.prune t else t with ht1
  split
  · split
    · show (assocSet t1.table pos e).length ≤ t.table.length + 1
      calc (assocSet t1.table pos e).length ≤ t1.table.length + 1 := assocSet_length_le _ _ _
        _ ≤ t.table.length + 1 := by omega
    · show t1.table.length ≤ t.table.length + 1
      omega
  · show (assocSet t1.table pos e).length ≤ t.table.length + 1
    calc (assocSet t1.table pos e).length ≤ t1.table.length + 1 := assocSet_length_le _ _ _
      _ ≤ t.table.length + 1 := by omega

/-!  Helper lemmas about keyRun, the bulk-table constructor. -/

theorem keyRun_length (e : TableEntry Nat) : ∀ n s, (keyRun e n s).length = n := by
  intro n
  induction n with
  | zero => intro s; rfl
  | succ m ih => intro s; simp [keyRun, ih]

theorem keyRun_mem (e : TableEntry Nat) :
    ∀ n s p, p ∈ keyRun e n s → p.2 = e ∧ p.1 < s + n := by
  intro n
  induction n with
  | zero => intro s p hp; simp [keyRun] at hp
  | succ m ih =>
    intro s p hp
    simp only [keyRun, List.mem_cons] at hp
    rcases hp with hp | hp
    · subst hp; exact ⟨rfl, by omega⟩
    · obtain ⟨h1, h2⟩ := ih (s + 1) p hp
      exact ⟨h1, by omega⟩

theorem keyRun_filter_false (e : TableEntry Nat) (o : Int)
    (h : decide (e.age < o) = false) :
    ∀ n s, (keyRun e n s).filter (fun p => decide (p.2.age < o)) = [] := by
  intro n
  induction n with
  | zero => intro s; rfl
  | succ m ih => intro s; simp [keyRun, List.filter_cons, h, ih]

theorem keyRun_filter_true (e : TableEntry Nat) (o : Int)
    (h : decide (e.age < o) = true) :
    ∀ n s, (keyRun e n s).filter (fun p => decide (p.2.age < o)) = keyRun e n s := by
  intro n
  induction n with
  | zero => intro s; rfl
  | succ m ih => intro s; simp [keyRun, List.filter_cons, h, ih]

/-!  Helper lemmas about the alpha-beta searcher. -/

theorem runMoves_isSome [DecidableEq B]
    {child : Int → B → TranspositionTable B M → Option Int × TranspositionTable B M}
    (hchild : ∀ a b' t', ((child a b' t').1).isSome = true)
    (api : ChessApi B M) (board : B) (beta : Int) (D : Nat) :
    ∀ (moves : List M) (alpha : Int) (t : TranspositionTable B M),
      ((runMoves child api board beta D moves alpha t).1).isSome = true := by
  intro moves
  induction moves with
  | nil => intro alpha t; simp [runMoves]
  | cons mv rest ih =>
    intro alpha t
    rw [runMoves]
    rcases hc : child alpha (api.play_unchecked board mv) t with ⟨r, t1⟩
    rcases r with _ | s
    · have := hchild alpha (api.play_unchecked board mv) t
      rw [hc] at this
      simp at this
    · simp only [hc]
      by_cases h1 : beta ≤ -s
      · simp [h1]
      · by_cases h2 : alpha < -s
        · simp [h1, h2, ih]
        · simp [h1, h2, ih]

theorem alphaBetaF_isSome [DecidableEq B] [DecidableEq M] (api : ChessApi B M) :
    ∀ (fuel : Nat) (ia beta : Int) (depth max_depth : Nat) (b : B)
      (t : TranspositionTable B M) (stop : Bool),
      max_depth - depth ≤ fuel →
      ((alphaBetaF api fuel ia beta depth max_depth b t stop).1).isSome = true := by
  intro fuel
  induction fuel with
  | zero =>
    intro ia beta depth max_depth b t stop hfuel
    rw [alphaBetaF]
    have hd : max_depth ≤ depth := by omega
    simp [hd]
  | succ fuel' ih =>
    intro ia beta depth max_depth b t stop hfuel
    rw [alphaBetaF]
    by_cases hd : max_depth ≤ depth
    · simp [hd]
    · rw [if_neg hd]
      have hchild : ∀ (a : Int) (b' : B) (t' : TranspositionTable B M),
          ((alphaBetaF api fuel' (-beta) (-a) (depth + 1) max_depth b' t' stop).1).isSome = true :=
        fun a b' t' => ih (-beta) (-a) (depth + 1) max_depth b' t' stop (by omega)
      rcases hp : (t.probe b depth ia beta : ProbeResult M) with _ | mv | ⟨mv, s⟩
      · simp only [hp]
        exact runMoves_isSome hchild api b beta max_depth _ ia t
      · simp only [hp]
        exact runMoves_isSome hchild api b beta max_depth _ ia t
      · simp [hp]

theorem runMoves_vals [DecidableEq B] {D : Nat}
    {child : Int → B → TranspositionTable B M → Option Int × TranspositionTable B M}
    (hchild : ∀ a b' t', ∀ e' ∈ ((child a b' t').2).table.map Prod.snd,
        e' ∈ t'.table.map Prod.snd ∨ e'.depth = D)
    (api : ChessApi B M) (board : B) (beta : Int) :
    ∀ (moves : List M) (alpha : Int) (t : TranspositionTable B M),
      ∀ e' ∈ ((runMoves child api board beta D moves alpha t).2).table.map Prod.snd,
        e' ∈ t.table.map Prod.snd ∨ e'.depth = D := by
  intro moves
  induction moves with
  | nil => intro alpha t e' h; simp only [runMoves] at h; exact Or.inl h
  | cons mv rest ih =>
    intro alpha t e' h
    rw [runMoves] at h
    rcases hc : child alpha (api.play_unchecked board mv) t with ⟨r, t1⟩
    have hchild1 : ∀ e'' ∈ t1.table.map Prod.snd, e'' ∈ t.table.map Prod.snd ∨ e''.depth = D := by
      intro e'' h''
      have := hchild alpha (api.play_unchecked board mv) t e''
      rw [hc] at this
      exact this h''
    rw [hc] at h
    rcases r with _ | s
    · exact hchild1 e' h
    · simp only at h
      by_cases h1 : beta ≤ -s
      · rw [if_pos h1] at h
        rcases mem_vals_insert h with h2 | h2
        · exact hchild1 e' h2
        · right; rw [h2]
      · rw [if_neg h1] at h
        by_cases h2 : alpha < -s
        · rw [if_pos h2] at h
          rcases ih (-s) (t1.insert board ⟨mv, D, -s, NodeType.All, 0⟩) e' h with h3 | h3
          · rcases mem_vals_insert h3 with h4 | h4
            · exact hchild1 e' h4
            · right; rw [h4]
          · right; exact h3
        · rw [if_neg h2] at h
          rcases ih alpha t1 e' h with h3 | h3
          · exact hchild1 e' h3
          · right; exact h3

theorem alphaBetaF_vals [DecidableEq B] [DecidableEq M] (api : ChessApi B M) :
    ∀ (fuel : Nat) (ia beta : Int) (depth max_depth : Nat) (b : B)
      (t : TranspositionTable B M) (stop : Bool),
      ∀ e' ∈ ((alphaBetaF api fuel ia beta depth max_depth b t stop).2).table.map Prod.snd,
        e' ∈ t.table.map Prod.snd ∨ e'.depth = max_depth := by
  intro fuel
  induction fuel with
  | zero =>
    intro ia beta depth max_depth b t stop e' h
    rw [alphaBetaF] at h
    by_cases hd : max_depth ≤ depth
    · rw [if_pos hd] at h; exact Or.inl h
    · rw [if_neg hd] at h; exact Or.inl h
  | succ fuel' ih =>
    intro ia beta depth max_depth b t stop e' h
    rw [alphaBetaF] at h
    by_cases hd : max_depth ≤ depth
    · rw [if_pos hd] at h; exact Or.inl h
    · rw [if_neg hd] at h
      have hchild : ∀ (a : Int) (b' : B) (t' : TranspositionTable B M),
          ∀ e'' ∈ ((alphaBetaF api fuel' (-beta) (-a) (depth + 1) max_depth b' t' stop).2).table.map Prod.snd,
            e'' ∈ t'.table.map Prod.snd ∨ e''.depth = max_depth :=
        fun a b' t' => ih (-beta) (-a) (depth + 1) max_depth b' t' stop
      rcases hp : (t.probe b depth ia beta : ProbeResult M) with _ | mv | ⟨mv, s⟩
      · rw [hp] at h
        exact runMoves_vals hchild api b beta _ ia t e' h
      · rw [hp] at h
        exact runMoves_vals hchild api b beta _ ia t e' h
      · rw [hp] at h
        exact Or.inl h

/-!  Helper lemmas about the score comparator and sortedness. -/

theorem cmpScore_refl (a : Option Int) : cmpScore a a ≠ .gt := by
  rcases a with _ | x
  · simp [cmpScore]
  · simp [cmpScore]

theorem cmpScore_trans {a b c : Option Int}
    (h1 : cmpScore a b ≠ .gt) (h2 : cmpScore b c ≠ .gt) : cmpScore a c ≠ .gt := by
  rcases a with _ | x <;> rcases b with _ | y <;> rcases c with _ | z <;>
    simp only [cmpScore] at h1 h2 ⊢ <;> try simp at h1 h2 ⊢
  omega

theorem bigStale_table_eq :
    bigStaleTable.table =
      (0, entryDeep) :: keyRun entryDeep (TranspositionTable.MAX_SIZE - 1) 1 := rfl

theorem bigStale_oldest_eq : bigStaleTable.oldest_entry = 1 := rfl

theorem bigFresh_table_eq :
    bigFreshTable.table = keyRun freshRunEntry TranspositionTable.MAX_SIZE 0 := rfl

theorem bigFresh_oldest_eq : bigFreshTable.oldest_entry = 1 := rfl

theorem insert_after_full_prune [DecidableEq B] (t : TranspositionTable B M)
    (pos : B) (e : TableEntry M)
    (hc : TranspositionTable.MAX_SIZE ≤ t.table.length + 1)
    (hp : (TranspositionTable.prune t).table = []) :
    (t.insert pos e).table = [(pos, e)] := by
  rw [TranspositionTable.insert]
  simp only [if_pos hc, hp]
  rfl

theorem insert_after_noop_prune [DecidableEq B] (t : TranspositionTable B M)
    (pos : B) (e : TableEntry M)
    (hc : TranspositionTable.MAX_SIZE ≤ t.table.length + 1)
    (hp : (TranspositionTable.prune t).table = t.table)
    (hf : assocFind t.table pos = none) :
    (t.insert pos e).table.length = t.table.length + 1 := by
  rw [TranspositionTable.insert]
  simp only [if_pos hc, hp, hf]
  exact assocSet_length_of_find_none e hf

theorem scoreChainHeadLe {γ : Type} :
    ∀ (l : List (γ × Option Int)) (p0 : γ × Option Int),
      List.Chain' (fun a b => cmpScore a.2 b.2 ≠ Ordering.gt) (p0 :: l) →
      ∀ q ∈ l, cmpScore p0.2 q.2 ≠ Ordering.gt := by
  intro l
  induction l with
  | nil => intro p0 _ q hq; exact absurd hq (List.not_mem_nil q)
  | cons x xs ih =>
    intro p0 hc q hq
    rw [List.chain'_cons] at hc
    rcases List.mem_cons.mp hq with h | h
    · rw [h]; exact hc.1
    · exact cmpScore_trans hc.1 (ih x hc.2 q h)

/-!
Claim theorems.  Each `cN_…` theorem settles the claim CN of the review of
the specification against the source; `…_witness` instantiates a theorem
with hypotheses at concrete inputs, and `…_counterexample` refutes the claim
as literally stated.
-/

/-- C1 (code_bug evidence): the spec claims that receiving a `Stop` message
during an in-flight search sets the shared cancellation signal, joins the
worker and produces exactly one `BestMove` reply.  In the source
(engine.rs lines 53-66), `recv.try_recv().is_ok()` pops and DISCARDS the
`Stop`, after which the engine blocks inside `recv.recv()` waiting for a
further message — the cancellation signal is not set, and worker completion
is no longer noticed (even with the worker already finished the loop stays
blocked), so no reply is sent until some later message arrives. -/
theorem c1_stop_message_discarded :
    goLoopIteration ([.Stop] : List (EngineMessage Unit Unit)) false = .blockedOnRecv
    ∧ goLoopIteration ([.Stop] : List (EngineMessage Unit Unit)) true = .blockedOnRecv
    ∧ PollOutcome.blockedOnRecv ≠ PollOutcome.stopSet := by
  refine ⟨rfl, rfl, ?_⟩
  decide

/-- C2: probe behaves exactly as claimed — `Miss` on absence, `OrderingHint`
when the stored depth is strictly below the requested depth, and otherwise
the NodeType dispatch: `PV` always a `SearchResult` with the stored score,
`All` a `SearchResult(move, alpha)` exactly when stored score ≤ alpha,
`Cut` a `SearchResult(move, beta)` exactly when stored score ≥ beta, each
falling back to `OrderingHint`; moreover a `SearchResult` only ever comes
from an entry whose stored depth is ≥ the requested depth. -/
theorem c2_probe_cases [DecidableEq B] (t : TranspositionTable B M) (pos : B)
    (d : Nat) (alpha beta : Int) :
    (assocFind t.table pos = none → t.probe pos d alpha beta = .Miss) ∧
    (∀ e, assocFind t.table pos = some e →
      (e.depth < d → t.probe pos d alpha beta = .OrderingHint e.best_response) ∧
      (d ≤ e.depth →
        (e.node = .PV → t.probe pos d alpha beta = .SearchResult e.best_response e.score) ∧
        (e.node = .All →
          (e.score ≤ alpha → t.probe pos d alpha beta = .SearchResult e.best_response alpha) ∧
          (alpha < e.score → t.probe pos d alpha beta = .OrderingHint e.best_response)) ∧
        (e.node = .Cut →
          (beta ≤ e.score → t.probe pos d alpha beta = .SearchResult e.best_response beta) ∧
          (e.score < beta → t.probe pos d alpha beta = .OrderingHint e.best_response)))) ∧
    (∀ mv s, t.probe pos d alpha beta = .SearchResult mv s →
      ∃ e, assocFind t.table pos = some e ∧ d ≤ e.depth) := by
  refine ⟨?_, ?_, ?_⟩
  · intro h
    simp [TranspositionTable.probe, h]
  · intro e he
    constructor
    · intro hlt
      simp [TranspositionTable.probe, he, Nat.not_le.mpr hlt]
    · intro hge
      refine ⟨?_, ?_, ?_⟩
      · intro hn
        simp [TranspositionTable.probe, TranspositionTable.probeNode, he, hge, hn]
      · intro hn
        constructor
        · intro hs
          simp [TranspositionTable.probe, TranspositionTable.probeNode, he, hge, hn, hs]
        · intro hs
          simp [TranspositionTable.probe, TranspositionTable.probeNode, he, hge, hn,
            Int.not_le.mpr hs]
      · intro hn
        constructor
        · intro hs
          simp [TranspositionTable.probe, TranspositionTable.probeNode, he, hge, hn, hs]
        · intro hs
          simp [TranspositionTable.probe, TranspositionTable.probeNode, he, hge, hn,
            Int.not_le.mpr hs]
  · intro mv s h
    rcases he : assocFind t.table pos with _ | e
    · simp [TranspositionTable.probe, he] at h
    · by_cases hge : d ≤ e.depth
      · exact ⟨e, rfl, hge⟩
      · simp [TranspositionTable.probe, he, hge] at h

/-- C2 witness: on a concrete one-entry table (PV entry, depth 3) a probe at
depth 2 short-circuits with the stored move and score. -/
theorem c2_probe_cases_witness :
    TranspositionTable.probe smallTable 0 2 0 100 = .SearchResult 0 50 :=
  (((c2_probe_cases smallTable 0 2 0 100).2.1 entryFresh (by decide)).2 (by decide)).1 rfl

/-- C3 (code_bug evidence): the spec claims alpha_beta unwinds with the
explicit cancelled/absence variant whenever the shared cancellation signal
is set.  In the source the check at engine.rs lines 147-149 reads the flag
into an `if` with an EMPTY body, so the flag is ignored: with the signal set
(`stop = true`) and sufficient fuel (any `fuel ≥ max_depth - depth`; the
engine always calls it so), alpha_beta still returns a `Some` score, never
the absence variant. -/
theorem c3_alpha_beta_ignores_stop [DecidableEq B] [DecidableEq M]
    (api : ChessApi B M) (fuel : Nat) (ia beta : Int) (depth max_depth : Nat)
    (b : B) (t : TranspositionTable B M) (hfuel : max_depth - depth ≤ fuel) :
    ((alphaBetaF api fuel ia beta depth max_depth b t true).1).isSome = true :=
  alphaBetaF_isSome api fuel ia beta depth max_depth b t true hfuel

/-- C3 witness: with the cancellation signal set, an alpha_beta call at its
depth limit still produces a score (the evaluation of the board). -/
theorem c3_alpha_beta_ignores_stop_witness :
    0 - 0 ≤ 0 ∧ ((alphaBetaF stuckApi 0 0 0 0 0 () emptyTable true).1).isSome = true :=
  ⟨by decide, c3_alpha_beta_ignores_stop stuckApi 0 0 0 0 0 () emptyTable (by decide)⟩

/-- C4 counterexample: "the stored depth for a position never decreases"
fails when insert's triggered prune pass evicts the stored entry: on a table
at the prune-trigger size whose entries are all of age 2 against threshold 1
(position 0 holding a depth-5 entry), inserting a depth-1 entry for position
0 leaves the depth-1 entry stored — the stored depth decreased from 5 to 1. -/
theorem c4_prune_evicts_counterexample :
    assocFind bigStaleTable.table 0 = some entryDeep ∧
    entryShallow.depth < entryDeep.depth ∧
    assocFind (bigStaleTable.insert 0 entryShallow).table 0 = some entryShallow := by
  refine ⟨by rw [bigStale_table_eq]; simp [assocFind], by decide, ?_⟩
  have hone : 1 ≤ TranspositionTable.MAX_SIZE := by decide
  have hlen : bigStaleTable.table.length = TranspositionTable.MAX_SIZE := by
    rw [bigStale_table_eq, List.length_cons, keyRun_length]
    omega
  have hd : decide (entryDeep.age < (1 : Int)) = false := by decide
  have hp : (TranspositionTable.prune bigStaleTable).table = [] := by
    rw [TranspositionTable.prune]
    simp only [bigStale_oldest_eq, bigStale_table_eq]
    simp [List.filter_cons, hd, keyRun_filter_false entryDeep 1 hd]
  have hins := insert_after_full_prune bigStaleTable 0 entryShallow (by omega) hp
  rw [hins]
  simp [assocFind]

/-- C4 (amended): below the prune-trigger size, insert follows depth-preferred
replacement exactly — a fresh position is always inserted, an existing entry
is replaced iff the incoming depth is ≥ the stored depth, and the stored
depth for the position never decreases across the call. -/
theorem c4_depth_preferred_below_capacity [DecidableEq B]
    (t : TranspositionTable B M) (pos : B) (e : TableEntry M)
    (hcap : t.table.length + 1 < TranspositionTable.MAX_SIZE) :
    (assocFind t.table pos = none → assocFind (t.insert pos e).table pos = some e) ∧
    (∀ old, assocFind t.table pos = some old →
      (old.depth ≤ e.depth → assocFind (t.insert pos e).table pos = some e) ∧
      (e.depth < old.depth → assocFind (t.insert pos e).table pos = some old) ∧
      (∀ n, assocFind (t.insert pos e).table pos = some n → old.depth ≤ n.depth)) := by
  have hnc : ¬ TranspositionTable.MAX_SIZE ≤ t.table.length + 1 := by omega
  constructor
  · intro hf
    rw [TranspositionTable.insert]
    simp only [if_neg hnc, hf]
    exact assocFind_assocSet_self _ _ _
  · intro old hf
    have hrep : old.depth ≤ e.depth → assocFind (t.insert pos e).table pos = some e := by
      intro hd
      rw [TranspositionTable.insert]
      simp only [if_neg hnc, hf, if_pos hd]
      exact assocFind_assocSet_self _ _ _
    have hkeep : e.depth < old.depth → assocFind (t.insert pos e).table pos = some old := by
      intro hd
      rw [TranspositionTable.insert]
      simp only [if_neg hnc, hf, if_neg (Nat.not_le.mpr hd)]
    refine ⟨hrep, hkeep, ?_⟩
    intro n hn
    by_cases hd : old.depth ≤ e.depth
    · rw [hrep hd] at hn
      injection hn with hn
      rw [← hn]
      exact hd
    · rw [hkeep (Nat.lt_of_not_le hd)] at hn
      injection hn with hn
      rw [← hn]

/-- C4 witness: replacing a depth-3 entry by a depth-5 entry for the same
position on a small table stores the deeper entry. -/
theorem c4_depth_preferred_below_capacity_witness :
    assocFind (smallTable.insert 0 ⟨0, 5, 60, .PV, 0⟩).table 0 = some ⟨0, 5, 60, .PV, 0⟩ :=
  (((c4_depth_preferred_below_capacity smallTable 0 ⟨0, 5, 60, .PV, 0⟩ (by decide)).2
    entryFresh (by decide)).1) (by decide)

/-- C5 counterexample: the claim says every position that is checkmate for
the side to move scores −20000; but on the abstract view of a position where
Black (the side to move) is checkmated — cozy_chess status `Won`, e.g. the
scholar's-mate position — evaluate returns +20000, not −20000
(engine.rs lines 215-224 pick the sign from the side to move, not a fixed
"side to move has lost" constant). -/
theorem c5_black_mate_scores_positive :
    blackMatedApi.status () = .Won ∧
    blackMatedApi.side_to_move () = .Black ∧
    evaluate blackMatedApi () = 20000 ∧ (20000 : Int) ≠ -20000 := by
  exact ⟨rfl, rfl, rfl, by decide⟩

/-- C5 (amended): evaluate scores from the perspective of the player who has
just moved (the opponent of the side to move), as the source's own comment
states: a `Won` status (side to move checkmated) scores −20000 with White to
move and +20000 with Black to move; a draw scores 0; an ongoing position
scores the White-minus-Black material-and-mobility sum, negated when White
is to move. -/
theorem c5_evaluate_just_moved_perspective (api : ChessApi B M) (b : B) :
    (api.status b = .Won →
      evaluate api b = if api.side_to_move b = .White then -20000 else 20000) ∧
    (api.status b = .Drawn → evaluate api b = 0) ∧
    (api.status b = .Ongoing →
      evaluate api b = if api.side_to_move b = .Black then whiteRelativeScore api b
        else -(whiteRelativeScore api b)) := by
  refine ⟨?_, ?_, ?_⟩
  · intro h
    rcases hs : api.side_to_move b with _ | _ <;>
      simp [evaluate, h, hs]
  · intro h
    simp [evaluate, h]
  · intro h
    rcases hs : api.side_to_move b with _ | _ <;>
      simp [evaluate, h, hs, whiteRelativeScore]

/-- C5 witness: a position with White to move checkmated evaluates to −20000,
and a drawn position evaluates to 0. -/
theorem c5_evaluate_just_moved_perspective_witness :
    evaluate whiteMatedApi () = -20000 ∧ evaluate drawnApi () = 0 := by
  constructor
  · have h := (c5_evaluate_just_moved_perspective whiteMatedApi ()).1 rfl
    rw [h]
    rfl
  · exact (c5_evaluate_just_moved_perspective drawnApi ()).2.1 rfl

/-- C6 counterexample: the claim says prune removes exactly the entries whose
age EXCEEDS the threshold; but an entry whose age equals the threshold
(age 1, oldest_entry 1) is removed too — the source retains `age <
oldest_entry` (transposition_table.rs line 88), i.e. removes on `age ≥`. -/
theorem c6_threshold_age_removed_counterexample :
    (0, staleEntry) ∈ staleSmallTable.table ∧
    ¬ staleEntry.age > staleSmallTable.oldest_entry ∧
    (0, staleEntry) ∉ (TranspositionTable.prune staleSmallTable).table := by
  decide

/-- C6 (amended): prune removes exactly those entries whose age is greater
than or equal to the oldest_entry threshold (equivalently: retains exactly
those strictly younger), and afterwards decrements the threshold by one —
which makes a subsequent prune stricter, not laxer; repeated pruning can
empty the table. -/
theorem c6_prune_removes_at_or_above_threshold [DecidableEq B]
    (t : TranspositionTable B M) :
    ((TranspositionTable.prune t).oldest_entry = t.oldest_entry - 1) ∧
    (∀ p, p ∈ (TranspositionTable.prune t).table →
      p ∈ t.table ∧ p.2.age < t.oldest_entry) ∧
    (∀ p, p ∈ t.table → p.2.age < t.oldest_entry →
      p ∈ (TranspositionTable.prune t).table) := by
  refine ⟨rfl, ?_, ?_⟩
  · intro p hp
    have h := List.mem_filter.mp hp
    exact ⟨h.1, by simpa using h.2⟩
  · intro p hp ha
    exact List.mem_filter.mpr ⟨hp, by simpa using ha⟩

/-- C6 witness: an entry younger than the threshold survives a prune. -/
theorem c6_prune_removes_at_or_above_threshold_witness :
    (0, entryFresh) ∈ (TranspositionTable.prune smallTable).table :=
  (c6_prune_removes_at_or_above_threshold smallTable).2.2 (0, entryFresh)
    (by decide) (by decide)

/-- C7 counterexample: the table size can exceed MAX_SIZE after an insert.
On a table already holding MAX_SIZE entries, all younger than the threshold
(age 0 against threshold 1), the prune pass that insert triggers removes
nothing, and inserting a fresh position brings the size to MAX_SIZE + 1. -/
theorem c7_insert_exceeds_max_size_counterexample :
    TranspositionTable.MAX_SIZE <
      (bigFreshTable.insert TranspositionTable.MAX_SIZE freshRunEntry).table.length := by
  have hlen : bigFreshTable.table.length = TranspositionTable.MAX_SIZE := by
    rw [bigFresh_table_eq, keyRun_length]
  have hp : (TranspositionTable.prune bigFreshTable).table = bigFreshTable.table := by
    rw [TranspositionTable.prune]
    simp only [bigFresh_oldest_eq, bigFresh_table_eq]
    exact keyRun_filter_true freshRunEntry 1 (by decide) _ _
  have hf : assocFind bigFreshTable.table TranspositionTable.MAX_SIZE = none := by
    apply assocFind_none_of_forall
    intro p hp2
    have h := keyRun_mem freshRunEntry TranspositionTable.MAX_SIZE 0 p hp2
    omega
  have h := insert_after_noop_prune bigFreshTable TranspositionTable.MAX_SIZE freshRunEntry
    (by omega) hp hf
  omega

/-- C7 (amended): insert adds at most one entry on top of the (possibly
pruned) table, so the size after insert is at most the previous size plus
one; in particular, whenever the pre-insert size is below the prune trigger
(size + 1 < MAX_SIZE), the size after insert stays below MAX_SIZE.  The
unconditional ceiling claimed by the spec does not hold (see the
counterexample), because the triggered prune may evict nothing. -/
theorem c7_insert_size_bound [DecidableEq B] (t : TranspositionTable B M)
    (pos : B) (e : TableEntry M) :
    (t.insert pos e).table.length ≤ t.table.length + 1 ∧
    (t.table.length + 1 < TranspositionTable.MAX_SIZE →
      (t.insert pos e).table.length < TranspositionTable.MAX_SIZE) := by
  refine ⟨insert_length_le t pos e, ?_⟩
  intro h
  have hle := insert_length_le t pos e
  omega

/-- C7 witness: inserting into a small table keeps the size below MAX_SIZE. -/
theorem c7_insert_size_bound_witness :
    (smallTable.insert 1 entryFresh).table.length < TranspositionTable.MAX_SIZE :=
  (c7_insert_size_bound smallTable 1 entryFresh).2 (by decide)

/-- C8: on a terminal position (no legal root moves) the search coordinator
fails — the source's `move_list[0]` on the empty list aborts the search
(modelled as the `none` result) — rather than returning a move. -/
theorem c8_search_fails_without_moves [DecidableEq B] [DecidableEq M]
    (api : ChessApi B M) (sortFn : List (M × Option Int) → List (M × Option Int))
    (st : EngineState B M) (h : api.generate_moves st.board = []) :
    search api sortFn st = none := by
  simp [search, h]

/-- C8 witness: a position with no legal moves makes search fail. -/
theorem c8_search_fails_without_moves_witness :
    search stuckApi id ⟨(), false, emptyTable⟩ = none :=
  c8_search_fails_without_moves stuckApi id ⟨(), false, emptyTable⟩ rfl

/-- C9 counterexample: the claim says the root results are sorted with ties
broken by original list order (a stable sort), so the earliest of the
equal-best moves is selected.  The source uses `sort_unstable_by`
(engine.rs line 122), whose only contract is a sorted permutation: for the
collected results [(move 1, 0), (move 2, 0)] the output
[(move 2, 0), (move 1, 0)] is an admissible sorted permutation whose head —
the selected element — is not the earliest move. -/
theorem c9_unstable_sort_tie_counterexample :
    RustSortedBy [((1 : Nat), some (0 : Int)), (2, some 0)] [(2, some 0), (1, some 0)] ∧
    (([((2 : Nat), some (0 : Int)), (1, some 0)].head?).map Prod.fst ≠ some 1) := by
  refine ⟨⟨by decide, ?_⟩, by decide⟩
  norm_num [List.chain'_cons, List.chain'_singleton, cmpScore]
  decide

/-- C9 (amended): the per-depth root results are ordered by an unstable sort
on the score comparator (None below any score, scores ascending); for any
admissible sorted permutation, the selected first element is one of the
collected results and attains a minimal score among them — but the order of
equal scores, hence which of several equal-best moves is selected, is not
specified. -/
theorem c9_sorted_head_minimal {M' : Type} (input output : List (M' × Option Int))
    (h : RustSortedBy input output) (p0 : M' × Option Int)
    (h0 : output.head? = some p0) :
    p0 ∈ input ∧ ∀ q ∈ input, cmpScore p0.2 q.2 ≠ .gt := by
  rcases output with _ | ⟨x, rest⟩
  · simp at h0
  · simp at h0
    subst h0
    constructor
    · exact h.1.mem_iff.mp (List.mem_cons_self x rest)
    · intro q hq
      have hq2 : q ∈ x :: rest := h.1.mem_iff.mpr hq
      rcases List.mem_cons.mp hq2 with h2 | h2
      · rw [h2]
        exact cmpScore_refl _
      · exact scoreChainHeadLe rest x h.2 q h2

/-- C9 witness: on concrete results with distinct scores, the head of a
sorted permutation attains the minimum. -/
theorem c9_sorted_head_minimal_witness :
    ((2 : Nat), some (3 : Int)) ∈ [((1 : Nat), some (5 : Int)), (2, some 3)] ∧
    ∀ q ∈ [((1 : Nat), some (5 : Int)), (2, some 3)], cmpScore (some 3) q.2 ≠ .gt :=
  c9_sorted_head_minimal [((1 : Nat), some (5 : Int)), (2, some 3)]
    [(2, some 3), (1, some 5)]
    ⟨by decide, by norm_num [List.chain'_cons, List.chain'_singleton, cmpScore]; decide⟩
    (2, some 3) rfl

/-- C10: every table entry present after an alpha_beta call that was not
already present before it — i.e. every entry alpha_beta inserted, whether the
`Cut` of a beta cutoff or the `All` of an alpha improvement — carries
`depth = max_depth` (engine.rs lines 176-182 and 187-193 both store
`depth: max_depth`), and probing any entry of depth `max_depth` at a
requested depth ≤ `max_depth` (every interior node's depth) passes the
depth-sufficiency test and dispatches on the node type, so such an entry can
short-circuit the node. -/
theorem c10_inserted_entries_carry_max_depth [DecidableEq B] [DecidableEq M]
    (api : ChessApi B M) (fuel : Nat) (ia beta : Int) (depth max_depth : Nat)
    (b : B) (t : TranspositionTable B M) (stop : Bool) :
    (∀ e' ∈ ((alphaBetaF api fuel ia beta depth max_depth b t stop).2).table.map Prod.snd,
      e' ∈ t.table.map Prod.snd ∨ e'.depth = max_depth) ∧
    (∀ (t' : TranspositionTable B M) (pos : B) (e : TableEntry M) (d : Nat) (a bb : Int),
      assocFind t'.table pos = some e → e.depth = max_depth → d ≤ max_depth →
      t'.probe pos d a bb = TranspositionTable.probeNode e a bb) := by
  constructor
  · exact alphaBetaF_vals api fuel ia beta depth max_depth b t stop
  · intro t' pos e d a bb hf hd hle
    simp only [TranspositionTable.probe, hf]
    rw [if_pos (by omega)]

/-- C10 witness: on the empty table alpha_beta leaves only max_depth entries
(vacuously), and a depth-3 entry probed at depth 2 dispatches on its node
type. -/
theorem c10_inserted_entries_carry_max_depth_witness :
    (∀ e' ∈ ((alphaBetaF stuckApi 0 0 0 0 3 () emptyTable false).2).table.map Prod.snd,
      e' ∈ emptyTable.table.map Prod.snd ∨ e'.depth = 3) ∧
    TranspositionTable.probe unitTable () 2 0 100 = TranspositionTable.probeNode unitEntry 0 100 :=
  ⟨(c10_inserted_entries_carry_max_depth stuckApi 0 0 0 0 3 () emptyTable false).1,
   (c10_inserted_entries_carry_max_depth stuckApi 0 0 0 0 3 () emptyTable false).2
     unitTable () unitEntry 2 0 100 (by decide) rfl (by decide)⟩

